import Mathlib

/-!
Verification of the prompt segmentation and token-substitution engine of the
text-to-vision-assist repository (src/components/PromptBuilder.tsx).

Strings are modelled as lists of characters.  The JavaScript regular
expression search with pattern `\b<escaped literal>\b` and flag "i" is
modelled as a direct leftmost search for a word-bounded occurrence of the
literal, comparing characters through a canonicalization function
(ECMA-262 Canonicalize): the engine is defined once for an arbitrary
canonicalization `canon : Char → Char`, and the executable instance used
for concrete computation fixes `canon` to ASCII case folding (`lowerChar`).
The reconstruction theorem is proved for every canonicalization under which
only the filler character canonicalizes to the filler character — a
property the real engine's canonicalization has — so it covers the
program's matcher, not only the ASCII instance.  `escapeRegExp` in the
source only serves to make the token text a regex literal, so it has no
separate model.  JavaScript `\w` (the class used by `\b`) is `[A-Za-z0-9_]`
regardless of the "i" flag.
-/

namespace PromptBuilder

/-- Strings are modelled as lists of characters. -/
abbrev Str := List Char

/-- ASCII lower casing: the ASCII fragment of the case equivalence used by
the regex "i" flag and `toLowerCase`.  It serves as the executable
canonicalization instance for concrete computation; the universal theorems
about matching are stated for an arbitrary canonicalization. -/
def lowerChar (c : Char) : Char :=
  if 65 ≤ c.toNat ∧ c.toNat ≤ 90 then Char.ofNat (c.toNat + 32) else c

/-- JavaScript word characters `[A-Za-z0-9_]` (the `\w` class used by `\b`). -/
def isWordChar (c : Char) : Bool :=
  (65 ≤ c.toNat && c.toNat ≤ 90) || (97 ≤ c.toNat && c.toNat ≤ 122) ||
    (48 ≤ c.toNat && c.toNat ≤ 57) || c == '_'

/-- The filler character `"█"` that `segmentPrompt` writes over matched
ranges of the working copy. -/
def filler : Char := '█'

/-- `type TokenRole = "descriptor" | "quality" | "mood" | "action"`. -/
inductive TokenRole where
  | descriptor
  | quality
  | mood
  | action
deriving DecidableEq, Repr

/-- `type Token = { id; text; role; alts }`. -/
structure Token where
  id : Str
  text : Str
  role : TokenRole
  alts : List Str
deriving DecidableEq, Repr

/-- `type Segment = { kind: "text"; value } | { kind: "token"; tokenId }`. -/
inductive Segment where
  | text (value : Str)
  | token (tokenId : Str)
deriving DecidableEq, Repr

/-- A recorded placement `{ start, end, tokenId }` (the source field `end` is
called `stop` here because `end` is a Lean keyword). -/
structure Placement where
  start : Nat
  stop : Nat
  tokenId : Str
deriving DecidableEq, Repr

/-- `type PromptDoc = { raw; tokens }`. -/
structure PromptDoc where
  raw : Str
  tokens : List Token
deriving DecidableEq, Repr

/-- The component state relevant to `replaceToken`: the `promptDoc` and
`segments` React state cells. -/
structure AppState where
  promptDoc : Option PromptDoc
  segments : List Segment
deriving DecidableEq, Repr

/-- `s.slice(a, b)` on character lists. -/
def listSlice (s : Str) (a b : Nat) : Str := (s.drop a).take (b - a)

/-- Word-character status of position `i` of `s`; out-of-range counts as
non-word (as at the ends of a JavaScript string). -/
def wordAt (s : Str) (i : Nat) : Bool :=
  match s.get? i with
  | some c => isWordChar c
  | none => false

/-- `\b` holds at position `i`: the word-character status changes between
position `i - 1` (non-word when `i = 0`) and position `i`. -/
def boundaryAt (s : Str) (i : Nat) : Bool :=
  (decide (0 < i) && wordAt s (i - 1)) != wordAt s i

/-- The literal `pat` matches at position `i` of `s`, case-insensitively.
A case-insensitive literal match always has the literal's length. -/
def matchesAt (s pat : Str) (i : Nat) : Bool :=
  decide (i + pat.length ≤ s.length) &&
    decide (((s.drop i).take pat.length).map lowerChar = pat.map lowerChar)

/-- The whole pattern `\b<pat>\b` (flag "i") matches at position `i`. -/
def regexAt (s pat : Str) (i : Nat) : Bool :=
  boundaryAt s i && matchesAt s pat i && boundaryAt s (i + pat.length)

/-- Scan positions `i, i+1, ...` (at most `fuel` of them) for the first
match of `\b<pat>\b`. -/
def findFrom (s pat : Str) : Nat → Nat → Option Nat
  | _, 0 => none
  | i, fuel + 1 => if regexAt s pat i then some i else findFrom s pat (i + 1) fuel

/-- `new RegExp("\\b" + escapeRegExp(pat) + "\\b", "i").exec(s)`: index of
the leftmost word-bounded case-insensitive occurrence of `pat` in `s`. -/
def findMatch (s pat : Str) : Option Nat :=
  findFrom s pat 0 (s.length + 1)

/-- `working.slice(0, start) + "█".repeat(len) + working.slice(start + len)`. -/
def redact (s : Str) (start len : Nat) : Str :=
  s.take start ++ (List.replicate len filler ++ s.drop (start + len))

/-- The descending-by-text-length comparison used to sort tokens
(`(a, b) => b.text.length - a.text.length`). -/
abbrev tokLenGe (a b : Token) : Prop := b.text.length ≤ a.text.length

instance : DecidableRel tokLenGe := fun a b =>
  inferInstanceAs (Decidable (b.text.length ≤ a.text.length))

instance : IsTotal Token tokLenGe := ⟨fun a b => Nat.le_total b.text.length a.text.length⟩

instance : IsTrans Token tokLenGe := ⟨fun _ _ _ hab hbc => Nat.le_trans hbc hab⟩

/-- `[...tokens].sort((a, b) => b.text.length - a.text.length)`; JavaScript
`Array.prototype.sort` is stable, as is insertion sort. -/
def sortTokens (ts : List Token) : List Token :=
  List.insertionSort tokLenGe ts

/-- The placement loop of `segmentPrompt`: for each token in sorted order,
search the working copy for its first word-bounded case-insensitive
occurrence; on a match record `(start, end, tokenId)` and redact the matched
range of the working copy with the filler character. -/
def placeTokens : List Token → Str → List Placement → List Placement
  | [], _, acc => acc
  | t :: ts, working, acc =>
    match findMatch working t.text with
    | none => placeTokens ts working acc
    | some s =>
      placeTokens ts (redact working s t.text.length)
        (acc ++ [⟨s, s + t.text.length, t.id⟩])

/-- The ascending-by-start comparison used to sort placements
(`(a, b) => a.start - b.start`). -/
abbrev startLe (p q : Placement) : Prop := p.start ≤ q.start

instance : DecidableRel startLe := fun p q =>
  inferInstanceAs (Decidable (p.start ≤ q.start))

instance : IsTotal Placement startLe := ⟨fun p q => Nat.le_total p.start q.start⟩

instance : IsTrans Placement startLe := ⟨fun _ _ _ => Nat.le_trans⟩

/-- The placements recorded by `segmentPrompt raw ts`, in recording order. -/
def placementsOf (raw : Str) (ts : List Token) : List Placement :=
  placeTokens (sortTokens ts) raw []

/-- `placements.sort((a, b) => a.start - b.start)`. -/
def sortedPlacements (raw : Str) (ts : List Token) : List Placement :=
  List.insertionSort startLe (placementsOf raw ts)

/-- The emission walk of `segmentPrompt`: emit a literal for the gap before
each placement (when non-empty), a token segment for the placement, and a
trailing literal for any remaining suffix. -/
def emitSegments (raw : Str) : List Placement → Nat → List Segment
  | [], c => if c < raw.length then [Segment.text (raw.drop c)] else []
  | p :: ps, c =>
    (if c < p.start then [Segment.text ((raw.drop c).take (p.start - c))] else []) ++
      Segment.token p.tokenId :: emitSegments raw ps p.stop

/-- `function segmentPrompt(raw, tokens)`. -/
def segmentPrompt (raw : Str) (tokens : List Token) : List Segment :=
  if raw = [] then []
  else if tokens = [] then [Segment.text raw]
  else
    let segs := emitSegments raw (sortedPlacements raw tokens) 0
    if segs = [] then [Segment.text raw] else segs

/-- Lookup in the token index `new Map(tokens.map(t => [t.id, t]))`; a later
entry with the same id overwrites an earlier one, so lookup returns the last
matching token. -/
def lookupToken (ts : List Token) (id : Str) : Option Token :=
  ts.foldl (fun acc t => if t.id = id then some t else acc) none

/-- `segment.kind === "text" ? segment.value : tokenMap.get(segment.tokenId)?.text ?? ""`. -/
def resolveSegment (tokens : List Token) : Segment → Str
  | Segment.text v => v
  | Segment.token tid => (Option.map Token.text (lookupToken tokens tid)).getD []

/-- `function buildRawFromSegments(segments, tokenMap)`: literals verbatim,
token segments resolved to the token's text, a dangling reference to `""`;
the mapped pieces are joined. -/
def buildRawFromSegments (segments : List Segment) (tokens : List Token) : Str :=
  (segments.map (resolveSegment tokens)).flatten

/-- `const replaceToken = (tokenId, newText) => ...`: no-op when the document
is absent; otherwise update the matching token's text and rebuild `raw` from
the existing segments through the updated token index.  The `segments` state
cell is never written. -/
def replaceToken (st : AppState) (tokenId newText : Str) : AppState :=
  match st.promptDoc with
  | none => st
  | some doc =>
    let updatedTokens := doc.tokens.map fun t =>
      if t.id = tokenId then { t with text := newText } else t
    let updatedRaw := buildRawFromSegments st.segments updatedTokens
    { st with promptDoc := some { raw := updatedRaw, tokens := updatedTokens } }

/-! ### The engine over an arbitrary "i"-flag canonicalization

ECMA-262 `Canonicalize` maps each character to a canonical representative;
two characters match under the "i" flag when their representatives agree.
The definitions below repeat the matching pipeline verbatim with the
canonicalization as a parameter; instantiating it with `lowerChar` yields
the executable definitions above definitionally (proved below), and the
program's own canonicalization — which equates non-ASCII case pairs as well
— is another instance. -/

def canonMatchesAt (canon : Char → Char) (s pat : Str) (i : Nat) : Bool :=
  decide (i + pat.length ≤ s.length) &&
    decide (((s.drop i).take pat.length).map canon = pat.map canon)

def canonRegexAt (canon : Char → Char) (s pat : Str) (i : Nat) : Bool :=
  boundaryAt s i && canonMatchesAt canon s pat i && boundaryAt s (i + pat.length)

def canonFindFrom (canon : Char → Char) (s pat : Str) : Nat → Nat → Option Nat
  | _, 0 => none
  | i, fuel + 1 =>
    if canonRegexAt canon s pat i then some i
    else canonFindFrom canon s pat (i + 1) fuel

def canonFindMatch (canon : Char → Char) (s pat : Str) : Option Nat :=
  canonFindFrom canon s pat 0 (s.length + 1)

def canonPlaceTokens (canon : Char → Char) :
    List Token → Str → List Placement → List Placement
  | [], _, acc => acc
  | t :: ts, working, acc =>
    match canonFindMatch canon working t.text with
    | none => canonPlaceTokens canon ts working acc
    | some s =>
      canonPlaceTokens canon ts (redact working s t.text.length)
        (acc ++ [⟨s, s + t.text.length, t.id⟩])

def canonPlacementsOf (canon : Char → Char) (raw : Str) (ts : List Token) :
    List Placement :=
  canonPlaceTokens canon (sortTokens ts) raw []

def canonSortedPlacements (canon : Char → Char) (raw : Str) (ts : List Token) :
    List Placement :=
  List.insertionSort startLe (canonPlacementsOf canon raw ts)

def canonSegmentPrompt (canon : Char → Char) (raw : Str) (tokens : List Token) :
    List Segment :=
  if raw = [] then []
  else if tokens = [] then [Segment.text raw]
  else
    let segs := emitSegments raw (canonSortedPlacements canon raw tokens) 0
    if segs = [] then [Segment.text raw] else segs

/-- Separation of two recorded placements: their ranges sit side by side,
and they can share a start position only when both are empty. -/
def placeSep (p q : Placement) : Prop :=
  (p.stop ≤ q.start ∨ q.stop ≤ p.start) ∧
    (p.start = q.start → p.start = p.stop ∧ q.start = q.stop)

/-- Invariant maintained by the placement loop of `segmentPrompt`: the
working copy keeps the raw string's length, recorded ranges lie inside the
string, hold the filler character in the working copy and the raw characters
elsewhere, are pairwise separated, and each recorded range is a word-bounded
case-insensitive (canonicalization-equivalent) occurrence of its token's
text. -/
structure PlaceInv (canon : Char → Char) (ts : List Token) (raw working : Str)
    (acc : List Placement) : Prop where
  len_eq : working.length = raw.length
  bounds : ∀ p ∈ acc, p.start ≤ p.stop ∧ p.stop ≤ raw.length
  covered : ∀ p ∈ acc, ∀ i, p.start ≤ i → i < p.stop → working.get? i = some filler
  uncovered : ∀ i, (∀ p ∈ acc, ¬(p.start ≤ i ∧ i < p.stop)) → working.get? i = raw.get? i
  sep : List.Pairwise placeSep acc
  texts : ∀ p ∈ acc, ∃ t, t ∈ ts ∧ t.id = p.tokenId ∧ p.stop = p.start + t.text.length ∧
    (listSlice raw p.start p.stop).map canon = t.text.map canon

/-- The placements, in emission order, advance a cursor monotonically:
each placement starts at or after the current cursor, and moves the cursor
to its own stop. -/
def Chained : Nat → List Placement → Prop
  | _, [] => True
  | c, p :: ps => c ≤ p.start ∧ Chained p.stop ps

/-- The emission walk of `segmentPrompt`, annotated with the character range
of `raw` that each emitted segment covers. -/
def emitSpanned (raw : Str) : List Placement → Nat → List (Segment × Nat × Nat)
  | [], c =>
    if c < raw.length then [(Segment.text (raw.drop c), c, raw.length)] else []
  | p :: ps, c =>
    (if c < p.start then [(Segment.text ((raw.drop c).take (p.start - c)), c, p.start)]
     else []) ++
      (Segment.token p.tokenId, p.start, p.stop) :: emitSpanned raw ps p.stop

/-- The ranges `l` tile the index interval from `c` to `n`: each range
starts where the previous one stopped, never runs backwards, and the last
one stops at `n`. -/
def tilesFrom : Nat → Nat → List (Nat × Nat) → Bool
  | c, n, [] => c == n
  | c, n, (a, b) :: r => a == c && decide (a ≤ b) && tilesFrom b n r

/-! ### Fallback token extraction (`extractFallbackTokens`, `inferRole`)

`KEYWORD_ROLE` is a module-level array of `RegExp` objects carrying the `g`
flag, so each `pattern.test(text)` call in `inferRole` reads and writes the
shared `lastIndex` of its pattern: a successful test stores the match's end
position, a failed test resets it to `0`, and the next call starts searching
from the stored position.  The model threads that state explicitly.  Every
pattern below is an alternation of literals, written as a list of
alternatives; the source's `\s+` inside an alternative is written as a
single space and consumes a non-empty whitespace run. -/

/-- JavaScript whitespace characters (`\s`, and the split separator). -/
def isSpaceChar (c : Char) : Bool :=
  c == ' ' || c == '\t' || c == '\n' || c == '\r'

/-- Match one alternative at position `i`; a space consumes a non-empty
whitespace run (the source's `\s+`), other characters match
case-insensitively.  Returns the end position. -/
def altMatchAt (s : Str) : Str → Nat → Option Nat
  | [], i => some i
  | a :: as, i =>
    if a == ' ' then
      let j := i + ((s.drop i).takeWhile isSpaceChar).length
      if j = i then none else altMatchAt s as j
    else
      match s.get? i with
      | none => none
      | some c => if lowerChar c == lowerChar a then altMatchAt s as (i + 1) else none

/-- First alternative of the alternation matching at position `i` (no two
alternatives of any source pattern are prefix-related, so first-match is
faithful to the regex engine's backtracking). -/
def patMatchAt (s : Str) (alts : List Str) (i : Nat) : Option Nat :=
  match alts with
  | [] => none
  | a :: as =>
    match altMatchAt s a i with
    | some e => some e
    | none => patMatchAt s as i

/-- Leftmost match of the alternation at a position `≥ i`, scanning at most
`fuel` positions; returns the match's end position. -/
def patFindFrom (s : Str) (alts : List Str) : Nat → Nat → Option Nat
  | _, 0 => none
  | i, fuel + 1 =>
    match patMatchAt s alts i with
    | some e => some e
    | none => patFindFrom s alts (i + 1) fuel

/-- `pattern.test(s)` for a `/g` regex with stored `lastIndex`: search from
`lastIndex`; on success return `true` and store the match's end, on failure
return `false` and reset the stored position to `0`. -/
def testG (alts : List Str) (lastIndex : Nat) (s : Str) : Bool × Nat :=
  match patFindFrom s alts lastIndex (s.length + 1 - lastIndex) with
  | some e => (true, e)
  | none => (false, 0)

/-- Word-bounded alternation match at position `i` (for the `\b(...)\b`
fallback patterns). -/
def patBoundedAt (s : Str) (alts : List Str) (i : Nat) : Option Nat :=
  if boundaryAt s i then
    match patMatchAt s alts i with
    | some e => if boundaryAt s e then some e else none
    | none => none
  else none

def boundedFindFrom (s : Str) (alts : List Str) : Nat → Nat → Option Nat
  | _, 0 => none
  | i, fuel + 1 =>
    match patBoundedAt s alts i with
    | some e => some e
    | none => boundedFindFrom s alts (i + 1) fuel

/-- `.test` of a stateless (no `g` flag) `\b(...)\b/i` pattern. -/
def testBounded (alts : List Str) (s : Str) : Bool :=
  (boundedFindFrom s alts 0 (s.length + 1)).isSome

/-- `.test` of a stateless plain alternation pattern with the `i` flag. -/
def testPlain (alts : List Str) (s : Str) : Bool :=
  (testG alts 0 s).1

/-- The four `KEYWORD_ROLE` patterns, as alternative lists. -/
def qualityPat : List Str :=
  [("high quality".toList), ("8k".toList), ("ultra detail".toList),
    ("studio lighting".toList), ("volumetric".toList), ("rim light".toList),
    ("softbox".toList), ("hard light".toList), ("backlit".toList), ("bokeh".toList)]

def moodPat : List Str :=
  [("chiaroscuro".toList), ("cinematic".toList), ("cool tones".toList),
    ("warm tones".toList), ("neon".toList), ("pastel".toList), ("monochrome".toList),
    ("earthy".toList), ("desaturated".toList), ("moody".toList), ("vibrant".toList)]

def actionPat : List Str :=
  [("carved".toList), ("woven".toList), ("forged".toList), ("grown".toList),
    ("assembled".toList), ("whittled".toList), ("sculpted".toList),
    ("panning".toList), ("tilt".toList), ("dolly".toList), ("zoom".toList),
    ("tracking".toList), ("orbiting".toList)]

def descriptorPat : List Str :=
  [("dress".toList), ("gown".toList), ("armor".toList), ("cat".toList),
    ("city".toList), ("forest".toList), ("portrait".toList), ("mountain".toList),
    ("desert".toList), ("robot".toList), ("mask".toList), ("character".toList),
    ("creature".toList), ("temple".toList), ("street".toList)]

/-- The fallback heuristic patterns of `inferRole`, which carry no `g` flag
and hence no state. -/
def fbSuffixPat : List Str :=
  [("ly".toList), ("ic".toList), ("ous".toList), ("ful".toList),
    ("ish".toList), ("ive".toList)]

def fbQualityWords : List Str :=
  [("light".toList), ("tone".toList), ("quality".toList), ("detail".toList)]

def fbActionPat : List Str :=
  [("run".toList), ("fly".toList), ("carved".toList), ("forged".toList),
    ("grown".toList), ("shoot".toList), ("tilt".toList), ("pan".toList),
    ("zoom".toList), ("orbit".toList), ("track".toList), ("hold".toList)]

def fbMoodPat : List Str :=
  [("moody".toList), ("warm".toList), ("cool".toList), ("neon".toList),
    ("pastel".toList), ("earthy".toList), ("grim".toList), ("bright".toList),
    ("soft".toList), ("harsh".toList)]

/-- The `lastIndex` cells of the four shared `KEYWORD_ROLE` regexes. -/
structure KeywordRoleState where
  quality : Nat
  mood : Nat
  action : Nat
  descriptor : Nat
deriving DecidableEq, Repr

/-- All `lastIndex` cells are `0` when the module loads. -/
def initialKeywordRoleState : KeywordRoleState := ⟨0, 0, 0, 0⟩

/-- `function inferRole(text)`: test the four shared `KEYWORD_ROLE`
patterns in order (each test reading and writing its pattern's `lastIndex`),
then the stateless fallback heuristics, defaulting to `"descriptor"`. -/
def inferRole (st : KeywordRoleState) (text : Str) : TokenRole × KeywordRoleState :=
  let r1 := testG qualityPat st.quality text
  if r1.1 then (TokenRole.quality, { st with quality := r1.2 })
  else
    let st1 := { st with quality := r1.2 }
    let r2 := testG moodPat st1.mood text
    if r2.1 then (TokenRole.mood, { st1 with mood := r2.2 })
    else
      let st2 := { st1 with mood := r2.2 }
      let r3 := testG actionPat st2.action text
      if r3.1 then (TokenRole.action, { st2 with action := r3.2 })
      else
        let st3 := { st2 with action := r3.2 }
        let r4 := testG descriptorPat st3.descriptor text
        if r4.1 then (TokenRole.descriptor, { st3 with descriptor := r4.2 })
        else
          let st4 := { st3 with descriptor := r4.2 }
          if testBounded fbSuffixPat text || testPlain fbQualityWords text then
            (TokenRole.quality, st4)
          else if testBounded fbActionPat text then (TokenRole.action, st4)
          else if testBounded fbMoodPat text then (TokenRole.mood, st4)
          else (TokenRole.descriptor, st4)

/-- `s.includes(sub)` at a fixed position: the plain (case-sensitive)
substring test. -/
def subAt (s sub : Str) (i : Nat) : Bool :=
  decide (i + sub.length ≤ s.length) && decide ((s.drop i).take sub.length = sub)

def includesFrom (s sub : Str) : Nat → Nat → Bool
  | _, 0 => false
  | i, fuel + 1 => subAt s sub i || includesFrom s sub (i + 1) fuel

/-- `s.includes(sub)`. -/
def strIncludes (s sub : Str) : Bool :=
  includesFrom s sub 0 (s.length + 1)

/-- The `commonTerms` vocabulary of `extractFallbackTokens`. -/
def commonTerms : List Str :=
  [("high quality".toList), ("ultra detailed".toList), ("studio lighting".toList),
    ("cinematic".toList), ("dramatic".toList), ("portrait".toList),
    ("landscape".toList), ("detailed".toList), ("realistic".toList),
    ("professional".toList), ("artistic".toList), ("beautiful".toList),
    ("stunning".toList), ("masterpiece".toList)]

/-- The `altMap` table of `getDefaultAlternatives`. -/
def altMap : List (Str × List Str) :=
  [(("high quality".toList),
      [("premium".toList), ("photoreal".toList), ("film-grade".toList),
        ("clean".toList), ("polished".toList), ("pristine".toList)]),
    (("ultra detailed".toList),
      [("intricate".toList), ("highly detailed".toList), ("fine detail".toList),
        ("micro-detail".toList), ("ornate".toList), ("textured".toList)]),
    (("studio lighting".toList),
      [("natural light".toList), ("softbox".toList), ("rim light".toList),
        ("backlit".toList), ("hard light".toList), ("volumetric".toList)]),
    (("cinematic".toList),
      [("filmic".toList), ("dramatic".toList), ("epic".toList),
        ("documentary".toList), ("stylized".toList), ("artistic".toList)]),
    (("dramatic".toList),
      [("subtle".toList), ("intense".toList), ("moody".toList),
        ("striking".toList), ("bold".toList), ("understated".toList)]),
    (("portrait".toList),
      [("headshot".toList), ("close-up".toList), ("bust".toList),
        ("profile".toList), ("three-quarter".toList), ("candid".toList)]),
    (("landscape".toList),
      [("scenery".toList), ("vista".toList), ("panorama".toList),
        ("terrain".toList), ("countryside".toList), ("seascape".toList)]),
    (("detailed".toList),
      [("intricate".toList), ("elaborate".toList), ("thorough".toList),
        ("precise".toList), ("meticulous".toList), ("refined".toList)]),
    (("realistic".toList),
      [("lifelike".toList), ("natural".toList), ("authentic".toList),
        ("true-to-life".toList), ("photographic".toList), ("believable".toList)]),
    (("professional".toList),
      [("expert".toList), ("polished".toList), ("commercial".toList),
        ("studio-quality".toList), ("refined".toList), ("masterful".toList)]),
    (("artistic".toList),
      [("creative".toList), ("expressive".toList), ("stylized".toList),
        ("aesthetic".toList), ("imaginative".toList), ("inspired".toList)]),
    (("beautiful".toList),
      [("stunning".toList), ("gorgeous".toList), ("elegant".toList),
        ("graceful".toList), ("lovely".toList), ("attractive".toList)]),
    (("stunning".toList),
      [("breathtaking".toList), ("magnificent".toList), ("spectacular".toList),
        ("impressive".toList), ("striking".toList), ("remarkable".toList)]),
    (("masterpiece".toList),
      [("work of art".toList), ("tour de force".toList), ("magnum opus".toList),
        ("classic".toList), ("exemplary".toList), ("outstanding".toList)])]

/-- `function getDefaultAlternatives(term)`: look the lowercased term up in
`altMap`, with a generic fallback set. -/
def getDefaultAlternatives (term : Str) : List Str :=
  match altMap.find? (fun kv => kv.1 == term.map lowerChar) with
  | some kv => kv.2
  | none =>
    [("enhanced".toList), ("improved".toList), ("refined".toList),
      ("elevated".toList), ("sophisticated".toList), ("polished".toList)]

/-- `prompt.toLowerCase().split(/\s+/)` keeps an empty piece before a
leading separator and after a trailing one; `splitWsAux` consumes one
separator run and the following piece per step. -/
def splitWsAux : Nat → Str → List Str
  | 0, _ => []
  | fuel + 1, rest =>
    match rest with
    | [] => []
    | _ :: _ =>
      let r2 := rest.dropWhile isSpaceChar
      (r2.takeWhile fun c => !isSpaceChar c) ::
        splitWsAux fuel (r2.dropWhile fun c => !isSpaceChar c)

/-- `s.split(/\s+/)` on character lists. -/
def splitWs (s : Str) : List Str :=
  (s.takeWhile fun c => !isSpaceChar c) ::
    splitWsAux (s.length + 1) (s.dropWhile fun c => !isSpaceChar c)

/-- The stopword list of `extractFallbackTokens`. -/
def stopWords : List Str :=
  [("with".toList), ("from".toList), ("that".toList), ("this".toList),
    ("they".toList), ("have".toList), ("will".toList), ("been".toList),
    ("were".toList)]

/-- Result of one `extractFallbackTokens` call together with the global
mutable state it leaves behind: the id counter and the `lastIndex` cells of
the shared `KEYWORD_ROLE` regexes. -/
structure FallbackResult where
  tokens : List Token
  nextId : Nat
  rstate : KeywordRoleState
deriving Repr

/-- `function extractFallbackTokens(prompt)`.  `gen` abstracts the
`token-${Date.now()}-${++idCounter}` id generator (applied to the running
counter); `rs` is the state of the shared `KEYWORD_ROLE` regexes at call
time.  Phase 1 scans the vocabulary terms; phase 2 adds up to six
significant words not subsumed by an existing token's text; the result is
capped at eight tokens. -/
def extractFallbackTokens (gen : Nat → Str) (ctr : Nat) (rs : KeywordRoleState)
    (prompt : Str) : FallbackResult :=
  let lower := prompt.map lowerChar
  let phase1 := commonTerms.foldl
    (fun (acc : List Token × Nat × KeywordRoleState) term =>
      if strIncludes lower term then
        let r := inferRole acc.2.2 term
        (acc.1 ++ [⟨gen acc.2.1, term, r.1, getDefaultAlternatives term⟩],
          acc.2.1 + 1, r.2)
      else acc)
    ([], ctr, rs)
  let words := splitWs lower
  let significantWords :=
    (words.filter fun w => decide (4 < w.length) && !(stopWords.contains w)).take 6
  let phase2 := significantWords.foldl
    (fun (acc : List Token × Nat × KeywordRoleState) word =>
      if acc.1.any (fun tok => strIncludes (tok.text.map lowerChar) word) then acc
      else
        let r := inferRole acc.2.2 word
        (acc.1 ++ [⟨gen acc.2.1, word, r.1, getDefaultAlternatives word⟩],
          acc.2.1 + 1, r.2))
    phase1
  ⟨phase2.1.take 8, phase2.2.1, phase2.2.2⟩

/-! ### Character-level facts -/

theorem toNat_ofNat_valid (n : Nat) (hv : Nat.isValidChar n) : (Char.ofNat n).toNat = n := by
  simp only [Char.ofNat, hv, dif_pos]
  rfl

theorem lowerChar_filler : lowerChar filler = filler := by decide

theorem isWordChar_filler : isWordChar filler = false := by decide

/-- Only the filler character itself case-folds to the filler character. -/
theorem eq_filler_of_lowerChar {c : Char} (h : lowerChar c = filler) : c = filler := by
  unfold lowerChar at h
  split at h
  · rename_i hc
    exfalso
    have h2 := congrArg Char.toNat h
    rw [toNat_ofNat_valid _ (Or.inl (by omega))] at h2
    have h3 : filler.toNat = 9608 := by decide
    omega
  · exact h

/-! ### Slicing facts -/

theorem slice_append_drop (s : Str) {a b : Nat} (hab : a ≤ b) :
    listSlice s a b ++ s.drop b = s.drop a := by
  unfold listSlice
  have h : s.drop b = (s.drop a).drop (b - a) := by
    rw [List.drop_drop]
    congr 1
    omega
  rw [h, List.take_append_drop]

theorem listSlice_length {s : Str} {a b : Nat} (_ : a ≤ b) (hb : b ≤ s.length) :
    (listSlice s a b).length = b - a := by
  simp [listSlice]
  omega

theorem listSlice_get? {s : Str} {a b o : Nat} (ho : o < b - a) :
    (listSlice s a b).get? o = s.get? (a + o) := by
  unfold listSlice
  rw [List.get?_take ho, List.get?_drop]

/-! ### Search specification, for an arbitrary canonicalization -/

theorem findFrom_some {canon : Char → Char} {s pat : Str} :
    ∀ {i fuel j}, canonFindFrom canon s pat i fuel = some j →
      i ≤ j ∧ canonRegexAt canon s pat j = true ∧
        ∀ k, i ≤ k → k < j → canonRegexAt canon s pat k = false := by
  intro i fuel
  induction fuel generalizing i with
  | zero => intro j h; simp [canonFindFrom] at h
  | succ fuel ih =>
    intro j h
    rw [canonFindFrom] at h
    by_cases hr : canonRegexAt canon s pat i = true
    · simp only [hr, if_true, Option.some.injEq] at h
      subst h
      exact ⟨Nat.le_refl _, hr, fun k hk1 hk2 => absurd hk1 (by omega)⟩
    · simp only [hr, if_false, Bool.false_eq_true] at h
      obtain ⟨h1, h2, h3⟩ := ih h
      refine ⟨by omega, h2, fun k hk1 hk2 => ?_⟩
      rcases Nat.eq_or_lt_of_le hk1 with heq | hlt
      · subst heq; exact Bool.not_eq_true _ ▸ Bool.eq_false_iff.mpr hr
      · exact h3 k hlt hk2

theorem findMatch_some {canon : Char → Char} {s pat : Str} {j : Nat}
    (h : canonFindMatch canon s pat = some j) :
    canonRegexAt canon s pat j = true ∧
      ∀ k, k < j → canonRegexAt canon s pat k = false := by
  obtain ⟨_, h2, h3⟩ := findFrom_some h
  exact ⟨h2, fun k hk => h3 k (Nat.zero_le _) hk⟩

theorem regexAt_spec {canon : Char → Char} {s pat : Str} {i : Nat}
    (h : canonRegexAt canon s pat i = true) :
    i + pat.length ≤ s.length ∧
      (listSlice s i (i + pat.length)).map canon = pat.map canon ∧
      boundaryAt s i = true := by
  unfold canonRegexAt canonMatchesAt at h
  simp only [Bool.and_eq_true, decide_eq_true_eq] at h
  obtain ⟨⟨hb, h1, h2⟩, -⟩ := h
  refine ⟨h1, ?_, hb⟩
  unfold listSlice
  simpa [Nat.add_sub_cancel_left] using h2

/-- Pointwise form of the case-insensitive match: each matched position of
`s` holds a character that canonicalizes like the corresponding pattern
character. -/
theorem match_chars {canon : Char → Char} {w pat : Str} {s : Nat}
    (hlen : s + pat.length ≤ w.length)
    (heq : (listSlice w s (s + pat.length)).map canon = pat.map canon) :
    ∀ i, s ≤ i → i < s + pat.length →
      ∃ c d, w.get? i = some c ∧ pat.get? (i - s) = some d ∧ canon c = canon d := by
  intro i hi1 hi2
  have ho : i - s < pat.length := by omega
  have hslice : (listSlice w s (s + pat.length)).get? (i - s) = w.get? i := by
    rw [listSlice_get? (by omega)]
    congr 1
    omega
  have h1 := congrArg (fun l => l.get? (i - s)) heq
  simp only [List.get?_map, hslice] at h1
  have hd := List.get?_eq_get (l := pat) ho
  have hiw : i < w.length := by omega
  have hc := List.get?_eq_get (l := w) hiw
  rw [hc, hd] at h1
  simp only [Option.map_some'] at h1
  exact ⟨_, _, hc, hd, by injection h1⟩

/-- A matched position never holds the filler character, provided the
pattern avoids the filler character and — as holds for the engine's
canonicalization — only the filler character canonicalizes to the filler
character. -/
theorem match_not_filler {canon : Char → Char} {w pat : Str} {s : Nat}
    (hcf : canon filler = filler) (hfc : ∀ c, canon c = filler → c = filler)
    (hlen : s + pat.length ≤ w.length)
    (heq : (listSlice w s (s + pat.length)).map canon = pat.map canon)
    (hf : filler ∉ pat) :
    ∀ i, s ≤ i → i < s + pat.length → w.get? i ≠ some filler := by
  intro i hi1 hi2 hcontra
  obtain ⟨c, d, hc, hd, hcd⟩ := match_chars hlen heq i hi1 hi2
  rw [hc] at hcontra
  injection hcontra with hcf2
  subst hcf2
  rw [hcf] at hcd
  have hdf : d = filler := hfc d hcd.symm
  subst hdf
  exact hf (List.get?_mem hd)

/-! ### Redaction facts -/

theorem redact_length {s : Str} {a l : Nat} (h : a + l ≤ s.length) :
    (redact s a l).length = s.length := by
  simp [redact]
  omega

theorem redact_get?_lt {s : Str} {a l i : Nat} (hi : i < a) (ha : a ≤ s.length) :
    (redact s a l).get? i = s.get? i := by
  unfold redact
  rw [List.get?_append (by simp; omega), List.get?_take hi]

theorem redact_get?_mid {s : Str} {a l i : Nat} (h1 : a ≤ i) (h2 : i < a + l)
    (h3 : a + l ≤ s.length) :
    (redact s a l).get? i = some filler := by
  unfold redact
  have hta : (s.take a).length = a := by simp; omega
  rw [List.get?_append_right (by omega), hta]
  rw [List.get?_append (by simp; omega)]
  have hil : i - a < l := by omega
  rw [List.get?_eq_get (by simpa using hil)]
  simp

theorem redact_get?_ge {s : Str} {a l i : Nat} (h1 : a + l ≤ i) (h3 : a + l ≤ s.length) :
    (redact s a l).get? i = s.get? i := by
  unfold redact
  have hta : (s.take a).length = a := by simp; omega
  rw [List.get?_append_right (by omega), hta]
  rw [List.get?_append_right (by simp; omega)]
  rw [List.get?_drop]
  congr 1
  simp
  omega

/-! ### Word-boundary facts for empty token texts

An empty token text gives the pattern `\b\b`, which matches at the leftmost
word-boundary position; that position always carries a word character. -/

theorem boundary_exists_below (w : Str) :
    ∀ m, wordAt w m = true → ∃ k, k ≤ m ∧ boundaryAt w k = true := by
  intro m
  induction m with
  | zero =>
    intro h
    exact ⟨0, Nat.le_refl _, by simp [boundaryAt, h]⟩
  | succ n ih =>
    intro h
    by_cases hn : wordAt w n = true
    · obtain ⟨k, hk, hbk⟩ := ih hn
      exact ⟨k, by omega, hbk⟩
    · have hn2 : wordAt w n = false := Bool.eq_false_iff.mpr hn
      exact ⟨n + 1, Nat.le_refl _, by simp [boundaryAt, h, hn2]⟩

theorem wordAt_true {w : Str} {i : Nat} (h : wordAt w i = true) :
    ∃ c, w.get? i = some c ∧ isWordChar c = true := by
  unfold wordAt at h
  cases hc : w.get? i with
  | none => rw [hc] at h; exact absurd h (by simp)
  | some c => rw [hc] at h; exact ⟨c, rfl, h⟩

/-- The leftmost match of the empty pattern `\b\b` sits on a word character:
the leftmost word boundary of a string is the start of its first run of word
characters. -/
theorem wordAt_of_findMatch_nil {canon : Char → Char} {w : Str} {j : Nat}
    (h : canonFindMatch canon w [] = some j) :
    wordAt w j = true := by
  obtain ⟨hreg, hmin⟩ := findMatch_some h
  by_contra hw
  have hwf : wordAt w j = false := Bool.eq_false_iff.mpr hw
  have hb : boundaryAt w j = true := (regexAt_spec hreg).2.2
  unfold boundaryAt at hb
  rw [hwf] at hb
  have hb2 : (decide (0 < j) && wordAt w (j - 1)) = true := by simpa using hb
  simp only [Bool.and_eq_true, decide_eq_true_eq] at hb2
  obtain ⟨hj0, hjw⟩ := hb2
  obtain ⟨k, hk, hbk⟩ := boundary_exists_below w (j - 1) hjw
  have hklen : k ≤ w.length := by
    have h1 := (regexAt_spec hreg).1
    simp only [List.length_nil, Nat.add_zero] at h1
    omega
  have hrk : canonRegexAt canon w [] k = true := by
    unfold canonRegexAt canonMatchesAt
    simp [hbk, hklen]
  have := hmin k (by omega)
  rw [hrk] at this
  exact Bool.true_eq_false.mp this

/-! ### The placement-loop invariant -/

theorem placeSep_symm : Symmetric placeSep := by
  intro p q ⟨h1, h2⟩
  exact ⟨h1.symm, fun h => ⟨(h2 h.symm).2, (h2 h.symm).1⟩⟩

theorem placeInv_step {canon : Char → Char} {ts : List Token} {raw working : Str}
    {acc : List Placement} {t : Token} {s : Nat}
    (hcf : canon filler = filler) (hfc : ∀ c, canon c = filler → c = filler)
    (inv : PlaceInv canon ts raw working acc)
    (htm : t ∈ ts)
    (hflr : filler ∉ t.text)
    (hEmpty : ∀ p ∈ acc, p.start = p.stop → t.text = [])
    (hm : canonFindMatch canon working t.text = some s) :
    PlaceInv canon ts raw (redact working s t.text.length)
      (acc ++ [⟨s, s + t.text.length, t.id⟩]) := by
  obtain ⟨hreg, hmin⟩ := findMatch_some hm
  obtain ⟨hlen, hsl, hbnd⟩ := regexAt_spec hreg
  set L := t.text.length with hL
  set e := s + L with he
  have hnf : ∀ i, s ≤ i → i < e → working.get? i ≠ some filler :=
    fun i h1 h2 => match_not_filler hcf hfc hlen hsl hflr i h1 h2
  have F1 : ∀ i, s ≤ i → i < e → ∀ p ∈ acc, ¬(p.start ≤ i ∧ i < p.stop) :=
    fun i h1 h2 p hp ⟨hpi1, hpi2⟩ => hnf i h1 h2 (inv.covered p hp i hpi1 hpi2)
  have hraw_eq : ∀ i, s ≤ i → i < e → working.get? i = raw.get? i :=
    fun i h1 h2 => inv.uncovered i (fun p hp => F1 i h1 h2 p hp)
  have hrawlen : e ≤ raw.length := inv.len_eq ▸ hlen
  have hslice_eq : listSlice raw s e = listSlice working s e := by
    apply List.ext_get?
    intro n
    by_cases hn : n < e - s
    · rw [listSlice_get? hn, listSlice_get? hn]
      exact (hraw_eq (s + n) (by omega) (by omega)).symm
    · have hr : (listSlice raw s e).length = e - s := listSlice_length (by omega) hrawlen
      have hw2 : (listSlice working s e).length = e - s :=
        listSlice_length (by omega) (inv.len_eq ▸ hrawlen)
      rw [List.get?_eq_none.mpr (by omega), List.get?_eq_none.mpr (by omega)]
  have hslice_lower : (listSlice raw s e).map canon = t.text.map canon := by
    rw [hslice_eq]; exact hsl
  have hnewsep : ∀ p ∈ acc, placeSep p ⟨s, e, t.id⟩ := by
    intro p hp
    by_cases hqe : t.text = []
    · -- empty pattern: the match position carries a word character, hence
      -- lies outside every redacted range
      have hE : e = s := by rw [he, hL, hqe]; rfl
      have hword : wordAt working s = true := by
        apply wordAt_of_findMatch_nil
        rw [← hqe]; exact hm
      obtain ⟨c, hc, hcw⟩ := wordAt_true hword
      have hout : ¬(p.start ≤ s ∧ s < p.stop) := by
        intro ⟨h1, h2⟩
        have := inv.covered p hp s h1 h2
        rw [hc] at this
        injection this with hcf
        rw [hcf, isWordChar_filler] at hcw
        exact Bool.false_ne_true hcw
      constructor
      · show p.stop ≤ s ∨ e ≤ p.start
        rw [hE]
        by_cases h1 : p.stop ≤ s
        · exact Or.inl h1
        · refine Or.inr ?_
          by_contra h2
          exact hout ⟨by omega, by omega⟩
      · show p.start = s → p.start = p.stop ∧ s = e
        intro hps
        refine ⟨?_, by omega⟩
        by_contra hne
        have hlt : p.start < p.stop := Nat.lt_of_le_of_ne (inv.bounds p hp).1 hne
        exact hout ⟨by omega, by omega⟩
    · -- non-empty pattern: by hEmpty the old placement is non-empty too,
      -- and the freshly matched range misses every redacted range
      have hpe : p.start < p.stop := by
        rcases Nat.lt_or_ge p.start p.stop with h | h
        · exact h
        · have : p.start = p.stop := by
            have := (inv.bounds p hp).1; omega
          exact absurd (hEmpty p hp this) hqe
      have hse : s < e := by
        have : 0 < L := by
          rw [hL]
          cases ht : t.text with
          | nil => exact absurd ht hqe
          | cons a l => simp [ht]
        omega
      have hdisj : e ≤ p.start ∨ p.stop ≤ s := by
        by_contra hcon
        push_neg at hcon
        obtain ⟨h1, h2⟩ := hcon
        have hi1 : s ≤ max s p.start := Nat.le_max_left _ _
        have hi2 : max s p.start < e := by omega
        exact F1 (max s p.start) hi1 hi2 p hp ⟨Nat.le_max_right _ _, by omega⟩
      constructor
      · show p.stop ≤ s ∨ e ≤ p.start
        omega
      · show p.start = s → p.start = p.stop ∧ s = e
        intro hps
        exfalso
        exact F1 s (Nat.le_refl _) hse p hp ⟨by omega, by omega⟩
  refine ⟨?_, ?_, ?_, ?_, ?_, ?_⟩
  · rw [redact_length hlen]; exact inv.len_eq
  · intro p hp
    rcases List.mem_append.mp hp with h | h
    · exact inv.bounds p h
    · simp only [List.mem_singleton] at h
      subst h
      exact ⟨show s ≤ e by omega, hrawlen⟩
  · intro p hp i hi1 hi2
    rcases List.mem_append.mp hp with h | h
    · by_cases hlt : i < s
      · rw [redact_get?_lt hlt (by omega)]
        exact inv.covered p h i hi1 hi2
      · by_cases hge : e ≤ i
        · rw [redact_get?_ge (by omega) hlen]
          exact inv.covered p h i hi1 hi2
        · exact redact_get?_mid (by omega) (by omega) hlen
    · simp only [List.mem_singleton] at h
      subst h
      exact redact_get?_mid hi1 hi2 hlen
  · intro i hi
    have hiacc : ∀ p ∈ acc, ¬(p.start ≤ i ∧ i < p.stop) :=
      fun p hp => hi p (List.mem_append.mpr (Or.inl hp))
    have hinew : ¬(s ≤ i ∧ i < e) := by
      have := hi ⟨s, e, t.id⟩ (List.mem_append.mpr (Or.inr (List.mem_singleton.mpr rfl)))
      exact this
    by_cases hlt : i < s
    · rw [redact_get?_lt hlt (by omega)]
      exact inv.uncovered i hiacc
    · have hge : e ≤ i := by omega
      rw [redact_get?_ge hge hlen]
      exact inv.uncovered i hiacc
  · rw [List.pairwise_append]
    exact ⟨inv.sep, List.pairwise_singleton _ _,
      fun p hp q hq => (List.mem_singleton.mp hq) ▸ hnewsep p hp⟩
  · intro p hp
    rcases List.mem_append.mp hp with h | h
    · exact inv.texts p h
    · simp only [List.mem_singleton] at h
      subst h
      exact ⟨t, htm, rfl, rfl, hslice_lower⟩

theorem placeTokens_cons_none {t : Token} {tl : List Token} {working : Str}
    {acc : List Placement} (h : findMatch working t.text = none) :
    placeTokens (t :: tl) working acc = placeTokens tl working acc := by
  simp [placeTokens, h]

theorem placeTokens_cons_some {t : Token} {tl : List Token} {working : Str}
    {acc : List Placement} {s : Nat} (h : findMatch working t.text = some s) :
    placeTokens (t :: tl) working acc =
      placeTokens tl (redact working s t.text.length)
        (acc ++ [⟨s, s + t.text.length, t.id⟩]) := by
  simp [placeTokens, h]

theorem canonPlaceTokens_cons_none {canon : Char → Char} {t : Token} {tl : List Token}
    {working : Str} {acc : List Placement}
    (h : canonFindMatch canon working t.text = none) :
    canonPlaceTokens canon (t :: tl) working acc =
      canonPlaceTokens canon tl working acc := by
  simp [canonPlaceTokens, h]

theorem canonPlaceTokens_cons_some {canon : Char → Char} {t : Token} {tl : List Token}
    {working : Str} {acc : List Placement} {s : Nat}
    (h : canonFindMatch canon working t.text = some s) :
    canonPlaceTokens canon (t :: tl) working acc =
      canonPlaceTokens canon tl (redact working s t.text.length)
        (acc ++ [⟨s, s + t.text.length, t.id⟩]) := by
  simp [canonPlaceTokens, h]

theorem placeTokens_inv (canon : Char → Char) (ts : List Token) (raw : Str)
    (hcf : canon filler = filler) (hfc : ∀ c, canon c = filler → c = filler) :
    ∀ (tl : List Token) (working : Str) (acc : List Placement),
      (∀ t ∈ tl, t ∈ ts) →
      List.Pairwise tokLenGe tl →
      (∀ t ∈ tl, filler ∉ t.text) →
      (∀ p ∈ acc, p.start = p.stop → ∀ t ∈ tl, t.text = []) →
      PlaceInv canon ts raw working acc →
      ∃ working2, PlaceInv canon ts raw working2 (canonPlaceTokens canon tl working acc) := by
  intro tl
  induction tl with
  | nil => intro working acc _ _ _ _ inv; exact ⟨working, inv⟩
  | cons t tl ih =>
    intro working acc hmem hsort hflr hEmpty inv
    cases hm : canonFindMatch canon working t.text with
    | none =>
      rw [canonPlaceTokens_cons_none hm]
      exact ih working acc (fun u hu => hmem u (List.mem_cons_of_mem _ hu))
        hsort.of_cons (fun u hu => hflr u (List.mem_cons_of_mem _ hu))
        (fun p hp hpe u hu => hEmpty p hp hpe u (List.mem_cons_of_mem _ hu)) inv
    | some s =>
      rw [canonPlaceTokens_cons_some hm]
      have step := placeInv_step hcf hfc inv (hmem t (List.mem_cons_self _ _))
        (hflr t (List.mem_cons_self _ _))
        (fun p hp hpe => hEmpty p hp hpe t (List.mem_cons_self _ _)) hm
      apply ih _ _ (fun u hu => hmem u (List.mem_cons_of_mem _ hu))
        hsort.of_cons (fun u hu => hflr u (List.mem_cons_of_mem _ hu)) ?_ step
      intro p hp hpe u hu
      rcases List.mem_append.mp hp with h | h
      · exact hEmpty p h hpe u (List.mem_cons_of_mem _ hu)
      · simp only [List.mem_singleton] at h
        subst h
        have hlen0 : t.text.length = 0 := by
          have hss : s = s + t.text.length := hpe
          omega
        have hle := (List.pairwise_cons.mp hsort).1 u hu
        have : u.text.length = 0 := by
          have : u.text.length ≤ t.text.length := hle
          omega
        exact List.length_eq_zero.mp this

theorem canonPlacements_inv (canon : Char → Char) (raw : Str) (ts : List Token)
    (hcf : canon filler = filler) (hfc : ∀ c, canon c = filler → c = filler)
    (hf : ∀ t ∈ ts, filler ∉ t.text) :
    ∃ working2, PlaceInv canon ts raw working2 (canonPlacementsOf canon raw ts) := by
  apply placeTokens_inv canon ts raw hcf hfc (sortTokens ts) raw []
  · intro t ht
    exact (List.mem_insertionSort tokLenGe).mp ht
  · exact List.sorted_insertionSort tokLenGe ts
  · intro t ht
    exact hf t ((List.mem_insertionSort tokLenGe).mp ht)
  · intro p hp
    exact absurd hp (List.not_mem_nil p)
  · exact ⟨rfl, fun p hp => absurd hp (List.not_mem_nil p),
      fun p hp => absurd hp (List.not_mem_nil p), fun i _ => rfl,
      List.Pairwise.nil, fun p hp => absurd hp (List.not_mem_nil p)⟩

theorem canonSortedPlacements_spec (canon : Char → Char) (raw : Str) (ts : List Token)
    (hcf : canon filler = filler) (hfc : ∀ c, canon c = filler → c = filler)
    (hf : ∀ t ∈ ts, filler ∉ t.text) :
    (∀ p ∈ canonSortedPlacements canon raw ts, p.start ≤ p.stop ∧ p.stop ≤ raw.length) ∧
      List.Pairwise placeSep (canonSortedPlacements canon raw ts) ∧
      List.Pairwise startLe (canonSortedPlacements canon raw ts) ∧
      (∀ p ∈ canonSortedPlacements canon raw ts, ∃ t, t ∈ ts ∧ t.id = p.tokenId ∧
        p.stop = p.start + t.text.length ∧
        (listSlice raw p.start p.stop).map canon = t.text.map canon) := by
  obtain ⟨w2, inv⟩ := canonPlacements_inv canon raw ts hcf hfc hf
  have hperm : List.Perm (canonSortedPlacements canon raw ts)
      (canonPlacementsOf canon raw ts) :=
    List.perm_insertionSort startLe (canonPlacementsOf canon raw ts)
  refine ⟨?_, ?_, ?_, ?_⟩
  · intro p hp
    exact inv.bounds p (hperm.mem_iff.mp hp)
  · exact (List.Perm.pairwise_iff (fun {_ _} h => placeSep_symm h) hperm).mpr inv.sep
  · exact List.sorted_insertionSort startLe (canonPlacementsOf canon raw ts)
  · intro p hp
    exact inv.texts p (hperm.mem_iff.mp hp)

/-! ### The ASCII instance agrees with the executable definitions -/

theorem lowerChar_filler_closed : ∀ c, lowerChar c = filler → c = filler :=
  fun _ h => eq_filler_of_lowerChar h

theorem canonFindFrom_lowerChar (s pat : Str) :
    ∀ (fuel i : Nat), canonFindFrom lowerChar s pat i fuel = findFrom s pat i fuel := by
  intro fuel
  induction fuel with
  | zero => intro i; rfl
  | succ fuel ih =>
    intro i
    rw [canonFindFrom, findFrom]
    by_cases h : regexAt s pat i = true
    · rw [if_pos h, if_pos (show canonRegexAt lowerChar s pat i = true from h)]
    · rw [if_neg h, if_neg (show ¬canonRegexAt lowerChar s pat i = true from h), ih]

theorem canonFindMatch_lowerChar (s pat : Str) :
    canonFindMatch lowerChar s pat = findMatch s pat := by
  unfold canonFindMatch findMatch
  rw [canonFindFrom_lowerChar]

theorem canonPlaceTokens_lowerChar :
    ∀ (tl : List Token) (w : Str) (acc : List Placement),
      canonPlaceTokens lowerChar tl w acc = placeTokens tl w acc := by
  intro tl
  induction tl with
  | nil => intro w acc; rfl
  | cons t tl ih =>
    intro w acc
    cases hm : findMatch w t.text with
    | none =>
      rw [placeTokens_cons_none hm,
        canonPlaceTokens_cons_none (by rw [canonFindMatch_lowerChar]; exact hm), ih]
    | some s =>
      rw [placeTokens_cons_some hm,
        canonPlaceTokens_cons_some (by rw [canonFindMatch_lowerChar]; exact hm), ih]

theorem canonPlacementsOf_lowerChar (raw : Str) (ts : List Token) :
    canonPlacementsOf lowerChar raw ts = placementsOf raw ts := by
  unfold canonPlacementsOf placementsOf
  rw [canonPlaceTokens_lowerChar]

theorem canonSortedPlacements_lowerChar (raw : Str) (ts : List Token) :
    canonSortedPlacements lowerChar raw ts = sortedPlacements raw ts := by
  unfold canonSortedPlacements sortedPlacements
  rw [canonPlacementsOf_lowerChar]

theorem canonSegmentPrompt_lowerChar (raw : Str) (ts : List Token) :
    canonSegmentPrompt lowerChar raw ts = segmentPrompt raw ts := by
  unfold canonSegmentPrompt segmentPrompt
  rw [canonSortedPlacements_lowerChar]

theorem placements_inv (raw : Str) (ts : List Token)
    (hf : ∀ t ∈ ts, filler ∉ t.text) :
    ∃ working2, PlaceInv lowerChar ts raw working2 (placementsOf raw ts) := by
  have h := canonPlacements_inv lowerChar raw ts lowerChar_filler
    lowerChar_filler_closed hf
  rwa [canonPlacementsOf_lowerChar] at h

theorem sortedPlacements_spec (raw : Str) (ts : List Token)
    (hf : ∀ t ∈ ts, filler ∉ t.text) :
    (∀ p ∈ sortedPlacements raw ts, p.start ≤ p.stop ∧ p.stop ≤ raw.length) ∧
      List.Pairwise placeSep (sortedPlacements raw ts) ∧
      List.Pairwise startLe (sortedPlacements raw ts) ∧
      (∀ p ∈ sortedPlacements raw ts, ∃ t, t ∈ ts ∧ t.id = p.tokenId ∧
        p.stop = p.start + t.text.length ∧
        (listSlice raw p.start p.stop).map lowerChar = t.text.map lowerChar) := by
  have h := canonSortedPlacements_spec lowerChar raw ts lowerChar_filler
    lowerChar_filler_closed hf
  rwa [canonSortedPlacements_lowerChar] at h

/-! ### From separated, sorted placements to a chain -/

theorem sep_stop_le {p q : Placement} (hs : p.start ≤ q.start) (hsep : placeSep p q)
    (_ : p.start ≤ p.stop) (hq : q.start ≤ q.stop) : p.stop ≤ q.start := by
  obtain ⟨h1 | h1, h2⟩ := hsep
  · exact h1
  · have heq : p.start = q.start := Nat.le_antisymm hs (Nat.le_trans hq h1)
    obtain ⟨hpe, hqe⟩ := h2 heq
    omega

theorem chained_of_sorted :
    ∀ (ps : List Placement), List.Pairwise startLe ps → List.Pairwise placeSep ps →
      (∀ p ∈ ps, p.start ≤ p.stop) → ∀ c, (∀ p ∈ ps, c ≤ p.start) → Chained c ps := by
  intro ps
  induction ps with
  | nil => intro _ _ _ c _; trivial
  | cons p ps ih =>
    intro hsort hsep hb c hc
    obtain ⟨hsort1, hsort2⟩ := List.pairwise_cons.mp hsort
    obtain ⟨hsep1, hsep2⟩ := List.pairwise_cons.mp hsep
    refine ⟨hc p (List.mem_cons_self _ _), ?_⟩
    apply ih hsort2 hsep2 (fun q hq => hb q (List.mem_cons_of_mem _ hq))
    intro q hq
    exact sep_stop_le (hsort1 q hq) (hsep1 q hq) (hb p (List.mem_cons_self _ _))
      (hb q (List.mem_cons_of_mem _ hq))

/-! ### Rebuild facts and the token index -/

theorem buildRaw_nil (tokens : List Token) : buildRawFromSegments [] tokens = [] := rfl

theorem buildRaw_append (a b : List Segment) (tokens : List Token) :
    buildRawFromSegments (a ++ b) tokens =
      buildRawFromSegments a tokens ++ buildRawFromSegments b tokens := by
  simp [buildRawFromSegments]

theorem buildRaw_cons (s : Segment) (rest : List Segment) (tokens : List Token) :
    buildRawFromSegments (s :: rest) tokens =
      resolveSegment tokens s ++ buildRawFromSegments rest tokens := by
  simp [buildRawFromSegments]

theorem buildRaw_single_text (v : Str) (tokens : List Token) :
    buildRawFromSegments [Segment.text v] tokens = v := by
  simp [buildRawFromSegments, resolveSegment]

/-- The fold in `lookupToken` keeps its accumulator over entries whose id
differs from the requested one. -/
theorem lookupToken_keep {target : Str} :
    ∀ (l : List Token) (init : Option Token), (∀ u ∈ l, u.id ≠ target) →
      l.foldl (fun acc t => if t.id = target then some t else acc) init = init := by
  intro l
  induction l with
  | nil => intro init _; rfl
  | cons u l ih =>
    intro init h
    rw [List.foldl_cons]
    rw [if_neg (h u (List.mem_cons_self _ _))]
    exact ih init (fun v hv => h v (List.mem_cons_of_mem _ hv))

/-- With distinct token ids, the token index resolves a member token's id to
that token. -/
theorem lookupToken_eq_some {ts : List Token} {t : Token}
    (hid : (ts.map Token.id).Nodup) (ht : t ∈ ts) :
    lookupToken ts t.id = some t := by
  induction ts with
  | nil => exact absurd ht (List.not_mem_nil t)
  | cons u l ih =>
    rw [List.map_cons, List.nodup_cons] at hid
    obtain ⟨hu, hl⟩ := hid
    rcases List.mem_cons.mp ht with rfl | htl
    · unfold lookupToken
      rw [List.foldl_cons, if_pos rfl]
      apply lookupToken_keep
      intro v hv hvid
      exact hu (hvid ▸ List.mem_map_of_mem Token.id hv)
    · have hne : u.id ≠ t.id := by
        intro h
        exact hu (h ▸ List.mem_map_of_mem Token.id htl)
      unfold lookupToken
      rw [List.foldl_cons, if_neg hne]
      exact ih hl htl

theorem lookupToken_eq_none {ts : List Token} {tid : Str}
    (h : tid ∉ ts.map Token.id) : lookupToken ts tid = none := by
  apply lookupToken_keep
  intro u hu hc
  exact h (hc ▸ List.mem_map_of_mem Token.id hu)

/-! ### The emission walk reconstructs the raw string up to canonicalization -/

theorem emit_lower (canon : Char → Char) (raw : Str) (ts : List Token) :
    ∀ (ps : List Placement) (c : Nat), Chained c ps →
      (∀ p ∈ ps, p.start ≤ p.stop ∧ p.stop ≤ raw.length) →
      (∀ p ∈ ps, (listSlice raw p.start p.stop).map canon =
        (resolveSegment ts (Segment.token p.tokenId)).map canon) →
      (buildRawFromSegments (emitSegments raw ps c) ts).map canon =
        (raw.drop c).map canon := by
  intro ps
  induction ps with
  | nil =>
    intro c _ _ _
    rw [emitSegments]
    by_cases hc : c < raw.length
    · rw [if_pos hc, buildRaw_single_text]
    · rw [if_neg hc, buildRaw_nil, List.drop_eq_nil_of_le (by omega)]
  | cons p ps ih =>
    intro c hch hb hres
    obtain ⟨hc1, hch2⟩ := hch
    obtain ⟨hps, hple⟩ := hb p (List.mem_cons_self _ _)
    rw [emitSegments, buildRaw_append, buildRaw_cons]
    have hgap : buildRawFromSegments
        (if c < p.start then [Segment.text ((raw.drop c).take (p.start - c))] else [])
        ts = listSlice raw c p.start := by
      by_cases hlt : c < p.start
      · rw [if_pos hlt, buildRaw_single_text]
        rfl
      · rw [if_neg hlt, buildRaw_nil]
        have hce : c = p.start := by omega
        simp [listSlice, hce]
    rw [hgap]
    have hrest := ih p.stop hch2 (fun q hq => hb q (List.mem_cons_of_mem _ hq))
      (fun q hq => hres q (List.mem_cons_of_mem _ hq))
    have hmid := hres p (List.mem_cons_self _ _)
    rw [List.map_append, List.map_append, hrest, ← hmid]
    have hidraw : listSlice raw c p.start ++ (listSlice raw p.start p.stop ++
        raw.drop p.stop) = raw.drop c := by
      rw [slice_append_drop raw hps, slice_append_drop raw hc1]
    calc (listSlice raw c p.start).map canon ++
          ((listSlice raw p.start p.stop).map canon ++ (raw.drop p.stop).map canon)
        = (listSlice raw c p.start ++ (listSlice raw p.start p.stop ++
            raw.drop p.stop)).map canon := by
          rw [List.map_append, List.map_append]
      _ = (raw.drop c).map canon := by rw [hidraw]

/-! ### `segmentPrompt` branch facts -/

theorem emitSegments_ne_nil {raw : Str} (hraw : raw ≠ []) (ps : List Placement) :
    emitSegments raw ps 0 ≠ [] := by
  cases ps with
  | nil =>
    rw [emitSegments]
    have hpos : 0 < raw.length := List.length_pos.mpr hraw
    rw [if_pos hpos]
    simp
  | cons p ps =>
    rw [emitSegments]
    intro hcon
    rcases List.append_eq_nil.mp hcon with ⟨-, h2⟩
    exact List.cons_ne_nil _ _ h2

theorem segmentPrompt_main {raw : Str} {ts : List Token} (hraw : raw ≠ []) (hts : ts ≠ []) :
    segmentPrompt raw ts = emitSegments raw (sortedPlacements raw ts) 0 := by
  unfold segmentPrompt
  rw [if_neg hraw, if_neg hts]
  exact if_neg (emitSegments_ne_nil hraw _)

theorem canonSegmentPrompt_main {canon : Char → Char} {raw : Str} {ts : List Token}
    (hraw : raw ≠ []) (hts : ts ≠ []) :
    canonSegmentPrompt canon raw ts =
      emitSegments raw (canonSortedPlacements canon raw ts) 0 := by
  unfold canonSegmentPrompt
  rw [if_neg hraw, if_neg hts]
  exact if_neg (emitSegments_ne_nil hraw _)

/-! ### Claim C1 -/

/-- C1 as stated is refuted by a token whose stored text differs in casing
from its occurrence in the raw string: segmenting `"a cat"` with the token
`"CAT"` places the token, and the rebuilt concatenation is `"a CAT"`, not
`"a cat"`. -/
theorem c1_counterexample :
    buildRawFromSegments
        (segmentPrompt ("a cat".toList)
          [⟨"t1".toList, "CAT".toList, TokenRole.descriptor, []⟩])
        [⟨"t1".toList, "CAT".toList, TokenRole.descriptor, []⟩] ≠
      "a cat".toList := by
  decide

/-- C1 (amended): with distinct token ids and token texts avoiding the
filler character `"█"`, concatenating the segments of `segmentPrompt` —
literals verbatim, token segments resolved to the token's stored text —
yields `raw` up to the regex engine's case-insensitive character
canonicalization: folding both sides characterwise with the
canonicalization yields equal strings.  The first conjunct proves this for
every canonicalization under which only the filler character canonicalizes
to the filler character — the ECMA-262 "i"-flag canonicalization is such a
function (`"█"` has no case mapping and is nothing's uppercase), and so is
its ASCII fragment `lowerChar` — so the engine's matcher is an instance,
non-ASCII case pairs included.  The second conjunct identifies the ASCII
instance with the executable `segmentPrompt`.  Exact equality holds exactly
when every placed token's stored casing matches its occurrence in `raw`;
the counterexample shows it can fail. -/
theorem c1_reconstruction_canon :
    (∀ canon : Char → Char, canon filler = filler →
      (∀ c, canon c = filler → c = filler) →
      ∀ (raw : Str) (ts : List Token), (ts.map Token.id).Nodup →
        (∀ t ∈ ts, filler ∉ t.text) →
        (buildRawFromSegments (canonSegmentPrompt canon raw ts) ts).map canon =
          raw.map canon) ∧
      ∀ (raw : Str) (ts : List Token),
        canonSegmentPrompt lowerChar raw ts = segmentPrompt raw ts := by
  constructor
  · intro canon hcf hfc raw ts hid hf
    by_cases hraw : raw = []
    · subst hraw
      simp [canonSegmentPrompt, buildRaw_nil]
    by_cases hts : ts = []
    · subst hts
      unfold canonSegmentPrompt
      rw [if_neg hraw, if_pos rfl, buildRaw_single_text]
    rw [canonSegmentPrompt_main hraw hts]
    obtain ⟨hb, hsep, hsort, htexts⟩ :=
      canonSortedPlacements_spec canon raw ts hcf hfc hf
    have hch : Chained 0 (canonSortedPlacements canon raw ts) :=
      chained_of_sorted _ hsort hsep (fun p hp => (hb p hp).1) 0
        (fun p _ => Nat.zero_le _)
    have hres : ∀ p ∈ canonSortedPlacements canon raw ts,
        (listSlice raw p.start p.stop).map canon =
          (resolveSegment ts (Segment.token p.tokenId)).map canon := by
      intro p hp
      obtain ⟨t, htm, htid, hstop, hlow⟩ := htexts p hp
      have hlk : lookupToken ts p.tokenId = some t := htid ▸ lookupToken_eq_some hid htm
      rw [hlow]
      simp [resolveSegment, hlk]
    have hfin := emit_lower canon raw ts _ 0 hch hb hres
    rw [List.drop_zero] at hfin
    exact hfin
  · exact canonSegmentPrompt_lowerChar

/-- Witness for C1 at the specification's own scenario
`segment("a blue sky", [{text:"blue"}])`, instantiating the
canonicalization with the ASCII instance. -/
theorem c1_witness :
    (buildRawFromSegments
        (canonSegmentPrompt lowerChar ("a blue sky".toList)
          [⟨"t1".toList, "blue".toList, TokenRole.descriptor, ["azure".toList]⟩])
        [⟨"t1".toList, "blue".toList, TokenRole.descriptor, ["azure".toList]⟩]).map
        lowerChar =
      ("a blue sky".toList).map lowerChar ∧
      canonSegmentPrompt lowerChar ("a blue sky".toList)
          [⟨"t1".toList, "blue".toList, TokenRole.descriptor, ["azure".toList]⟩] =
        segmentPrompt ("a blue sky".toList)
          [⟨"t1".toList, "blue".toList, TokenRole.descriptor, ["azure".toList]⟩] :=
  ⟨c1_reconstruction_canon.1 lowerChar lowerChar_filler
      (fun c h => eq_filler_of_lowerChar h) _ _ (by decide) (by decide),
    c1_reconstruction_canon.2 _ _⟩

/-! ### Claim C2 -/

theorem emitSpanned_fst (raw : Str) :
    ∀ (ps : List Placement) (c : Nat),
      (emitSpanned raw ps c).map Prod.fst = emitSegments raw ps c := by
  intro ps
  induction ps with
  | nil =>
    intro c
    rw [emitSpanned, emitSegments]
    by_cases h : c < raw.length
    · rw [if_pos h, if_pos h]; rfl
    · rw [if_neg h, if_neg h]; rfl
  | cons p ps ih =>
    intro c
    rw [emitSpanned, emitSegments, List.map_append]
    by_cases h : c < p.start
    · rw [if_pos h, if_pos h]
      simp [ih]
    · rw [if_neg h, if_neg h]
      simp [ih]

theorem tiles_of_chained (raw : Str) :
    ∀ (ps : List Placement) (c : Nat), Chained c ps →
      (∀ p ∈ ps, p.start ≤ p.stop ∧ p.stop ≤ raw.length) → c ≤ raw.length →
      tilesFrom c raw.length ((emitSpanned raw ps c).map Prod.snd) = true := by
  intro ps
  induction ps with
  | nil =>
    intro c _ _ hc
    rw [emitSpanned]
    by_cases h : c < raw.length
    · rw [if_pos h]
      simp [tilesFrom, hc]
    · rw [if_neg h]
      have hce : c = raw.length := by omega
      simp [tilesFrom, hce]
  | cons p ps ih =>
    intro c hch hb hc
    obtain ⟨h1, h2⟩ := hch
    obtain ⟨hps, hpn⟩ := hb p (List.mem_cons_self _ _)
    have hrest := ih p.stop h2 (fun q hq => hb q (List.mem_cons_of_mem _ hq)) hpn
    rw [emitSpanned]
    by_cases h : c < p.start
    · rw [if_pos h]
      simp [tilesFrom, hrest, hps, h.le]
    · rw [if_neg h]
      have hce : c = p.start := by omega
      simp [tilesFrom, hrest, hps, hce]

/-- C2 as stated is refuted by a token whose text is made of filler
characters: with raw `"x.ca.y"` and tokens `".ca."` then `"████"`, the
second token re-matches the range that the first token redacted, and both
placements cover the range `[1, 5)`. -/
theorem c2_counterexample :
    ¬ List.Pairwise (fun p q => p.stop ≤ q.start ∨ q.stop ≤ p.start)
      (placementsOf ("x.ca.y".toList)
        [⟨"t1".toList, ".ca.".toList, TokenRole.descriptor, []⟩,
          ⟨"t2".toList, "████".toList, TokenRole.descriptor, []⟩]) := by
  decide

/-- C2 (amended): provided no token's text contains the filler character
`"█"`, the recorded placements are pairwise disjoint ranges, and the emitted
segment sequence partitions `[0, |raw|)`: the ranges covered by the walk's
segments tile the whole index range, literal segments covering the gaps and
token segments covering their placements. -/
theorem c2_partition (raw : Str) (ts : List Token) (hf : ∀ t ∈ ts, filler ∉ t.text) :
    List.Pairwise (fun p q => p.stop ≤ q.start ∨ q.stop ≤ p.start)
        (placementsOf raw ts) ∧
      tilesFrom 0 raw.length
        ((emitSpanned raw (sortedPlacements raw ts) 0).map Prod.snd) = true ∧
      (emitSpanned raw (sortedPlacements raw ts) 0).map Prod.fst =
        emitSegments raw (sortedPlacements raw ts) 0 ∧
      (raw ≠ [] → ts ≠ [] →
        segmentPrompt raw ts = emitSegments raw (sortedPlacements raw ts) 0) := by
  obtain ⟨w2, inv⟩ := placements_inv raw ts hf
  obtain ⟨hb, hsep, hsort, -⟩ := sortedPlacements_spec raw ts hf
  have hch : Chained 0 (sortedPlacements raw ts) :=
    chained_of_sorted _ hsort hsep (fun p hp => (hb p hp).1) 0 (fun p _ => Nat.zero_le _)
  refine ⟨?_, ?_, emitSpanned_fst raw _ 0, fun h1 h2 => segmentPrompt_main h1 h2⟩
  · exact inv.sep.imp (fun h => h.1)
  · exact tiles_of_chained raw _ 0 hch hb (Nat.zero_le _)

/-- Witness for C2 at the specification's scenario `"a blue sky"` with the
token `"blue"`. -/
theorem c2_witness :
    List.Pairwise (fun p q => p.stop ≤ q.start ∨ q.stop ≤ p.start)
        (placementsOf ("a blue sky".toList)
          [⟨"t1".toList, "blue".toList, TokenRole.descriptor, ["azure".toList]⟩]) ∧
      tilesFrom 0 ("a blue sky".toList).length
        ((emitSpanned ("a blue sky".toList)
          (sortedPlacements ("a blue sky".toList)
            [⟨"t1".toList, "blue".toList, TokenRole.descriptor, ["azure".toList]⟩])
          0).map Prod.snd) = true ∧
      (emitSpanned ("a blue sky".toList)
          (sortedPlacements ("a blue sky".toList)
            [⟨"t1".toList, "blue".toList, TokenRole.descriptor, ["azure".toList]⟩])
          0).map Prod.fst =
        emitSegments ("a blue sky".toList)
          (sortedPlacements ("a blue sky".toList)
            [⟨"t1".toList, "blue".toList, TokenRole.descriptor, ["azure".toList]⟩]) 0 ∧
      (("a blue sky".toList) ≠ ([] : Str) →
        [⟨"t1".toList, "blue".toList, TokenRole.descriptor, ["azure".toList]⟩] ≠
          ([] : List Token) →
        segmentPrompt ("a blue sky".toList)
            [⟨"t1".toList, "blue".toList, TokenRole.descriptor, ["azure".toList]⟩] =
          emitSegments ("a blue sky".toList)
            (sortedPlacements ("a blue sky".toList)
              [⟨"t1".toList, "blue".toList, TokenRole.descriptor, ["azure".toList]⟩]) 0) :=
  c2_partition _ _ (by decide)

/-! ### Claim C3 -/

/-- C3: with raw `"a category"` and tokens `"cat"` and `"category"` (either
input order), only the longer token `"category"` is placed — one placement,
covering `[2, 10)` — and the emitted segments are a literal `"a "` followed
by the `"category"` token's reference; `"cat"` receives no placement. -/
theorem c3_longest_first :
    (segmentPrompt ("a category".toList)
        [⟨"t1".toList, "cat".toList, TokenRole.descriptor, []⟩,
          ⟨"t2".toList, "category".toList, TokenRole.descriptor, []⟩] =
      [Segment.text ("a ".toList), Segment.token ("t2".toList)]) ∧
      (segmentPrompt ("a category".toList)
          [⟨"t2".toList, "category".toList, TokenRole.descriptor, []⟩,
            ⟨"t1".toList, "cat".toList, TokenRole.descriptor, []⟩] =
        [Segment.text ("a ".toList), Segment.token ("t2".toList)]) ∧
      (placementsOf ("a category".toList)
          [⟨"t1".toList, "cat".toList, TokenRole.descriptor, []⟩,
            ⟨"t2".toList, "category".toList, TokenRole.descriptor, []⟩] =
        [⟨2, 10, "t2".toList⟩]) ∧
      (placementsOf ("a category".toList)
          [⟨"t2".toList, "category".toList, TokenRole.descriptor, []⟩,
            ⟨"t1".toList, "cat".toList, TokenRole.descriptor, []⟩] =
        [⟨2, 10, "t2".toList⟩]) := by
  refine ⟨?_, ?_, ?_, ?_⟩ <;> decide

/-! ### Claim C4 -/

theorem placeTokens_ids :
    ∀ (tl : List Token) (w : Str) (acc : List Placement),
      ∃ l, placeTokens tl w acc = acc ++ l ∧
        List.Sublist (l.map Placement.tokenId) (tl.map Token.id) := by
  intro tl
  induction tl with
  | nil => intro w acc; exact ⟨[], (List.append_nil acc).symm, List.nil_sublist _⟩
  | cons t tl ih =>
    intro w acc
    cases hm : findMatch w t.text with
    | none =>
      obtain ⟨l, hl, hs⟩ := ih w acc
      rw [placeTokens_cons_none hm]
      exact ⟨l, hl, hs.cons _⟩
    | some s =>
      obtain ⟨l, hl, hs⟩ :=
        ih (redact w s t.text.length) (acc ++ [⟨s, s + t.text.length, t.id⟩])
      rw [placeTokens_cons_some hm, hl, List.append_assoc]
      refine ⟨⟨s, s + t.text.length, t.id⟩ :: l, by simp, ?_⟩
      simpa using hs.cons₂ t.id

theorem placements_count_le (raw : Str) (ts : List Token) (tid : Str) :
    ((placementsOf raw ts).map Placement.tokenId).countP (fun s => decide (s = tid)) ≤
      (ts.map Token.id).countP (fun s => decide (s = tid)) := by
  obtain ⟨l, hl, hs⟩ := placeTokens_ids (sortTokens ts) raw []
  unfold placementsOf
  rw [hl, List.nil_append]
  calc (l.map Placement.tokenId).countP (fun s => decide (s = tid))
      ≤ ((sortTokens ts).map Token.id).countP (fun s => decide (s = tid)) :=
        hs.countP_le _
    _ = (ts.map Token.id).countP (fun s => decide (s = tid)) := by
        have hperm : List.Perm (sortTokens ts) ts :=
          List.perm_insertionSort tokLenGe ts
        exact (hperm.map Token.id).countP_eq _

/-- C4: with raw `"red cat, red dog, red bird"` and the single token
`"red"`, exactly one token segment is emitted, at the first occurrence
(range `[0, 3)`), the other two occurrences staying inside the trailing
literal; and in general a token id is referenced by at most as many
placements as there are tokens carrying it — each token is placed at most
once per pass. -/
theorem c4_first_occurrence :
    (segmentPrompt ("red cat, red dog, red bird".toList)
        [⟨"t1".toList, "red".toList, TokenRole.descriptor, []⟩] =
      [Segment.token ("t1".toList),
        Segment.text (" cat, red dog, red bird".toList)]) ∧
      (placementsOf ("red cat, red dog, red bird".toList)
          [⟨"t1".toList, "red".toList, TokenRole.descriptor, []⟩] =
        [⟨0, 3, "t1".toList⟩]) ∧
      ∀ (raw : Str) (ts : List Token) (tid : Str),
        ((placementsOf raw ts).map Placement.tokenId).countP (fun s => decide (s = tid)) ≤
          (ts.map Token.id).countP (fun s => decide (s = tid)) :=
  ⟨by decide, by decide, placements_count_le⟩

/-! ### Claim C5 -/

theorem placeTokens_nomatch :
    ∀ (tl : List Token) (w : Str) (acc : List Placement),
      (∀ t ∈ tl, findMatch w t.text = none) → placeTokens tl w acc = acc := by
  intro tl
  induction tl with
  | nil => intro w acc _; rfl
  | cons t tl ih =>
    intro w acc h
    rw [placeTokens_cons_none (h t (List.mem_cons_self _ _))]
    exact ih w acc (fun u hu => h u (List.mem_cons_of_mem _ hu))

/-- C5: (a) an empty raw string segments to the empty sequence for every
token list; (b) a non-empty raw with no tokens segments to the single
literal `raw`; (c) a non-empty raw in which no token's text has a
word-bounded case-insensitive occurrence segments to the single literal
`raw`. -/
theorem c5_degenerate :
    (∀ ts : List Token, segmentPrompt [] ts = []) ∧
      (∀ raw : Str, raw ≠ [] → segmentPrompt raw [] = [Segment.text raw]) ∧
      (∀ (raw : Str) (ts : List Token), raw ≠ [] →
        (∀ t ∈ ts, findMatch raw t.text = none) →
        segmentPrompt raw ts = [Segment.text raw]) := by
  refine ⟨?_, ?_, ?_⟩
  · intro ts
    simp [segmentPrompt]
  · intro raw h
    unfold segmentPrompt
    rw [if_neg h, if_pos rfl]
  · intro raw ts hraw hnone
    by_cases hts : ts = []
    · subst hts
      unfold segmentPrompt
      rw [if_neg hraw, if_pos rfl]
    · have hplace : placementsOf raw ts = [] := by
        unfold placementsOf
        apply placeTokens_nomatch
        intro t ht
        exact hnone t ((List.mem_insertionSort tokLenGe).mp ht)
      rw [segmentPrompt_main hraw hts]
      unfold sortedPlacements
      rw [hplace]
      rw [show List.insertionSort startLe [] = [] from rfl]
      rw [emitSegments, if_pos (List.length_pos.mpr hraw), List.drop_zero]

/-- Witness for C5 at concrete inputs: an empty raw, the raw `"hi"` with no
tokens, and the raw `"a dog"` with the token `"cat"` that occurs nowhere. -/
theorem c5_witness :
    segmentPrompt [] [⟨"t1".toList, "red".toList, TokenRole.descriptor, []⟩] = [] ∧
      segmentPrompt ("hi".toList) [] = [Segment.text ("hi".toList)] ∧
      segmentPrompt ("a dog".toList)
          [⟨"t1".toList, "cat".toList, TokenRole.descriptor, []⟩] =
        [Segment.text ("a dog".toList)] :=
  ⟨c5_degenerate.1 _, c5_degenerate.2.1 _ (by decide),
    c5_degenerate.2.2 _ _ (by decide) (by decide)⟩

/-! ### `replaceToken` reduction and field facts -/

theorem replaceToken_none {segs : List Segment} (tid txt : Str) :
    replaceToken ⟨none, segs⟩ tid txt = ⟨none, segs⟩ := rfl

theorem replaceToken_some {doc : PromptDoc} {segs : List Segment} (tid txt : Str) :
    replaceToken ⟨some doc, segs⟩ tid txt =
      ⟨some
        { raw := buildRawFromSegments segs (doc.tokens.map fun t =>
            if t.id = tid then { t with text := txt } else t),
          tokens := doc.tokens.map fun t =>
            if t.id = tid then { t with text := txt } else t },
        segs⟩ := rfl

theorem map_update_of_not_mem {ts : List Token} {tid txt : Str}
    (h : tid ∉ ts.map Token.id) :
    (ts.map fun t => if t.id = tid then { t with text := txt } else t) = ts := by
  induction ts with
  | nil => rfl
  | cons u l ih =>
    simp only [List.map_cons, List.mem_cons, not_or] at h
    obtain ⟨h1, h2⟩ := h
    rw [List.map_cons, if_neg (fun hc => h1 hc.symm), ih h2]

theorem update_self (t : Token) : ({ t with text := t.text } : Token) = t := rfl

theorem update_id (t : Token) (tid txt : Str) :
    ((if t.id = tid then { t with text := txt } else t) : Token).id = t.id := by
  split <;> rfl

theorem update_role (t : Token) (tid txt : Str) :
    ((if t.id = tid then { t with text := txt } else t) : Token).role = t.role := by
  split <;> rfl

theorem update_alts (t : Token) (tid txt : Str) :
    ((if t.id = tid then { t with text := txt } else t) : Token).alts = t.alts := by
  split <;> rfl

theorem update_text (t : Token) (tid txt : Str) :
    ((if t.id = tid then { t with text := txt } else t) : Token).text =
      if t.id = tid then txt else t.text := by
  split <;> rfl

/-! ### Claim C6 -/

/-- C6 as stated is refuted on an inconsistent document: with `raw = "x"`,
no tokens and an empty segment sequence, `replaceToken` with an absent
token id rebuilds `raw` from the (empty) segments, changing it to `""`. -/
theorem c6_counterexample :
    (("t9".toList) ∉ (([] : List Token).map Token.id)) ∧
      replaceToken ⟨some ⟨"x".toList, []⟩, []⟩ ("t9".toList) ("n".toList) ≠
        ⟨some ⟨"x".toList, []⟩, []⟩ := by
  decide

/-- C6 (amended): when the document is absent, `replaceToken` is a strict
no-op.  When the target id is absent from the token set, the token list is
unchanged, and the whole state — in particular `raw` — is unchanged provided
the document satisfies the data model's invariant that `raw` equals the
concatenation of its segments (the code unconditionally rebuilds `raw` from
the segments, so on an inconsistent document `raw` can change). -/
theorem c6_noop (st : AppState) (tid txt : Str) :
    (st.promptDoc = none → replaceToken st tid txt = st) ∧
      (∀ doc, st.promptDoc = some doc → tid ∉ doc.tokens.map Token.id →
        doc.raw = buildRawFromSegments st.segments doc.tokens →
        replaceToken st tid txt = st) := by
  obtain ⟨pd, segs⟩ := st
  constructor
  · intro h
    have h2 : pd = none := h
    subst h2
    rfl
  · intro doc hdoc hmem hcons
    have h2 : pd = some doc := hdoc
    subst h2
    rw [replaceToken_some, map_update_of_not_mem hmem]
    have hcons2 : buildRawFromSegments segs doc.tokens = doc.raw := hcons.symm
    rw [hcons2]

/-- Witness for C6: an absent document, and a consistent document whose
token set misses the id `"t9"`. -/
theorem c6_witness :
    replaceToken ⟨none, []⟩ ("t9".toList) ("n".toList) = ⟨none, []⟩ ∧
      replaceToken ⟨some ⟨"hi".toList, []⟩, [Segment.text ("hi".toList)]⟩
          ("t9".toList) ("n".toList) =
        ⟨some ⟨"hi".toList, []⟩, [Segment.text ("hi".toList)]⟩ :=
  ⟨(c6_noop _ _ _).1 rfl, (c6_noop _ _ _).2 _ rfl (by decide) (by decide)⟩

/-! ### Claim C7 -/

/-- C7 as stated is refuted on an inconsistent document: replacing the token
`"a"` by its own text in the document `{raw := "x"}` with an empty segment
sequence rebuilds `raw` to `""`, so `raw` changes. -/
theorem c7_counterexample :
    ((⟨"i".toList, "a".toList, TokenRole.descriptor, []⟩ : Token) ∈
        [(⟨"i".toList, "a".toList, TokenRole.descriptor, []⟩ : Token)]) ∧
      Option.map PromptDoc.raw
          (replaceToken
            ⟨some ⟨"x".toList,
              [⟨"i".toList, "a".toList, TokenRole.descriptor, []⟩]⟩, []⟩
            ("i".toList) ("a".toList)).promptDoc ≠
        some ("x".toList) := by
  decide

/-- C7 (amended): on a document satisfying the data model — distinct token
ids and `raw` equal to the concatenation of its segments — replacing a
member token by its own current text leaves the state, in particular `raw`,
unchanged. -/
theorem c7_idempotent (st : AppState) (doc : PromptDoc) (t : Token)
    (hdoc : st.promptDoc = some doc) (ht : t ∈ doc.tokens)
    (hid : (doc.tokens.map Token.id).Nodup)
    (hcons : doc.raw = buildRawFromSegments st.segments doc.tokens) :
    replaceToken st t.id t.text = st := by
  obtain ⟨pd, segs⟩ := st
  have h2 : pd = some doc := hdoc
  subst h2
  rw [replaceToken_some]
  have hmap : (doc.tokens.map fun u =>
      if u.id = t.id then { u with text := t.text } else u) = doc.tokens := by
    have hcongr : ∀ u ∈ doc.tokens,
        (if u.id = t.id then { u with text := t.text } else u) = u := by
      intro u hu
      by_cases hc : u.id = t.id
      · have huts : u = t := List.inj_on_of_nodup_map hid hu ht hc
        subst huts
        rw [if_pos rfl]
      · rw [if_neg hc]
    rw [List.map_congr_left hcongr, List.map_id']
  rw [hmap]
  have hcons2 : buildRawFromSegments segs doc.tokens = doc.raw := hcons.symm
  rw [hcons2]

/-- Witness for C7: the consistent document `"a cat"` with the single token
`"cat"`, replaced by its own text. -/
theorem c7_witness :
    replaceToken
        ⟨some ⟨"a cat".toList,
          [⟨"t1".toList, "cat".toList, TokenRole.descriptor, []⟩]⟩,
          [Segment.text ("a ".toList), Segment.token ("t1".toList)]⟩
        ("t1".toList) ("cat".toList) =
      ⟨some ⟨"a cat".toList,
        [⟨"t1".toList, "cat".toList, TokenRole.descriptor, []⟩]⟩,
        [Segment.text ("a ".toList), Segment.token ("t1".toList)]⟩ :=
  c7_idempotent _ _ (⟨"t1".toList, "cat".toList, TokenRole.descriptor, []⟩ : Token)
    rfl (by decide) (by decide) (by decide)

/-! ### Claim C8 -/

/-- C8: after `replaceToken` on a present document and a present token id,
the segment sequence is untouched, the token list keeps its length, every
token keeps its `id`, `role` and `alts`, the targeted token's `text` becomes
`newText`, every other token's `text` is unchanged, and a targeted token
exists. -/
theorem c8_frame (st : AppState) (doc : PromptDoc) (tid txt : Str)
    (hdoc : st.promptDoc = some doc) (hmem : tid ∈ doc.tokens.map Token.id) :
    ∃ doc2, (replaceToken st tid txt).promptDoc = some doc2 ∧
      (replaceToken st tid txt).segments = st.segments ∧
      doc2.tokens.length = doc.tokens.length ∧
      (∀ i, ∀ hi : i < doc.tokens.length, ∀ hi2 : i < doc2.tokens.length,
        (doc2.tokens.get ⟨i, hi2⟩).id = (doc.tokens.get ⟨i, hi⟩).id ∧
          (doc2.tokens.get ⟨i, hi2⟩).role = (doc.tokens.get ⟨i, hi⟩).role ∧
          (doc2.tokens.get ⟨i, hi2⟩).alts = (doc.tokens.get ⟨i, hi⟩).alts ∧
          (doc2.tokens.get ⟨i, hi2⟩).text =
            (if (doc.tokens.get ⟨i, hi⟩).id = tid then txt
             else (doc.tokens.get ⟨i, hi⟩).text)) ∧
      ∃ t, t ∈ doc.tokens ∧ t.id = tid := by
  obtain ⟨pd, segs⟩ := st
  have h2 : pd = some doc := hdoc
  subst h2
  rw [replaceToken_some]
  refine ⟨_, rfl, rfl, by simp, ?_, ?_⟩
  · intro i hi hi2
    rw [List.get_map]
    exact ⟨update_id _ _ _, update_role _ _ _, update_alts _ _ _, update_text _ _ _⟩
  · obtain ⟨t, ht, htid⟩ := List.mem_map.mp hmem
    exact ⟨t, ht, htid⟩

/-- Witness for C8 at a concrete two-token document. -/
theorem c8_witness :
    ∃ doc2,
      (replaceToken
          ⟨some ⟨"red cat".toList,
            [⟨"t1".toList, "red".toList, TokenRole.descriptor, []⟩,
              ⟨"t2".toList, "cat".toList, TokenRole.descriptor, []⟩]⟩,
            [Segment.token ("t1".toList), Segment.text (" ".toList),
              Segment.token ("t2".toList)]⟩
          ("t1".toList) ("blue".toList)).promptDoc = some doc2 ∧
        (replaceToken
            ⟨some ⟨"red cat".toList,
              [⟨"t1".toList, "red".toList, TokenRole.descriptor, []⟩,
                ⟨"t2".toList, "cat".toList, TokenRole.descriptor, []⟩]⟩,
              [Segment.token ("t1".toList), Segment.text (" ".toList),
                Segment.token ("t2".toList)]⟩
            ("t1".toList) ("blue".toList)).segments =
          (⟨some ⟨"red cat".toList,
            [⟨"t1".toList, "red".toList, TokenRole.descriptor, []⟩,
              ⟨"t2".toList, "cat".toList, TokenRole.descriptor, []⟩]⟩,
            [Segment.token ("t1".toList), Segment.text (" ".toList),
              Segment.token ("t2".toList)]⟩ : AppState).segments ∧
        doc2.tokens.length =
          (⟨"red cat".toList,
            [⟨"t1".toList, "red".toList, TokenRole.descriptor, []⟩,
              ⟨"t2".toList, "cat".toList, TokenRole.descriptor, []⟩]⟩ :
            PromptDoc).tokens.length ∧
        (∀ i, ∀ hi : i <
            (⟨"red cat".toList,
              [⟨"t1".toList, "red".toList, TokenRole.descriptor, []⟩,
                ⟨"t2".toList, "cat".toList, TokenRole.descriptor, []⟩]⟩ :
              PromptDoc).tokens.length,
          ∀ hi2 : i < doc2.tokens.length,
          (doc2.tokens.get ⟨i, hi2⟩).id =
            ((⟨"red cat".toList,
              [⟨"t1".toList, "red".toList, TokenRole.descriptor, []⟩,
                ⟨"t2".toList, "cat".toList, TokenRole.descriptor, []⟩]⟩ :
              PromptDoc).tokens.get ⟨i, hi⟩).id ∧
            (doc2.tokens.get ⟨i, hi2⟩).role =
              ((⟨"red cat".toList,
                [⟨"t1".toList, "red".toList, TokenRole.descriptor, []⟩,
                  ⟨"t2".toList, "cat".toList, TokenRole.descriptor, []⟩]⟩ :
                PromptDoc).tokens.get ⟨i, hi⟩).role ∧
            (doc2.tokens.get ⟨i, hi2⟩).alts =
              ((⟨"red cat".toList,
                [⟨"t1".toList, "red".toList, TokenRole.descriptor, []⟩,
                  ⟨"t2".toList, "cat".toList, TokenRole.descriptor, []⟩]⟩ :
                PromptDoc).tokens.get ⟨i, hi⟩).alts ∧
            (doc2.tokens.get ⟨i, hi2⟩).text =
              (if ((⟨"red cat".toList,
                  [⟨"t1".toList, "red".toList, TokenRole.descriptor, []⟩,
                    ⟨"t2".toList, "cat".toList, TokenRole.descriptor, []⟩]⟩ :
                  PromptDoc).tokens.get ⟨i, hi⟩).id = ("t1".toList) then ("blue".toList)
               else ((⟨"red cat".toList,
                  [⟨"t1".toList, "red".toList, TokenRole.descriptor, []⟩,
                    ⟨"t2".toList, "cat".toList, TokenRole.descriptor, []⟩]⟩ :
                  PromptDoc).tokens.get ⟨i, hi⟩).text)) ∧
        ∃ t, t ∈ (⟨"red cat".toList,
            [⟨"t1".toList, "red".toList, TokenRole.descriptor, []⟩,
              ⟨"t2".toList, "cat".toList, TokenRole.descriptor, []⟩]⟩ :
            PromptDoc).tokens ∧ t.id = ("t1".toList) :=
  c8_frame _ _ _ _ rfl (by decide)

/-! ### Claim C10 -/

/-- C10: `buildRawFromSegments` is total, and a token segment whose id is
not in the token index contributes the empty string: the rebuilt text is the
concatenation of the surrounding segments' contributions. -/
theorem c10_dangling (segs1 segs2 : List Segment) (tokens : List Token) (tid : Str)
    (h : tid ∉ tokens.map Token.id) :
    buildRawFromSegments (segs1 ++ Segment.token tid :: segs2) tokens =
      buildRawFromSegments segs1 tokens ++ buildRawFromSegments segs2 tokens := by
  rw [buildRaw_append, buildRaw_cons]
  rw [show resolveSegment tokens (Segment.token tid) = [] from by
    simp [resolveSegment, lookupToken_eq_none h]]
  rw [List.nil_append]

/-- Witness for C10: a dangling reference between two literals contributes
nothing. -/
theorem c10_witness :
    buildRawFromSegments
        ([Segment.text ("a ".toList)] ++ Segment.token ("ghost".toList) ::
          [Segment.text ("b".toList)]) [] =
      buildRawFromSegments [Segment.text ("a ".toList)] [] ++
        buildRawFromSegments [Segment.text ("b".toList)] [] :=
  c10_dangling _ _ _ _ (by decide)

/-! ### Claim C9 -/

/-- C9 fails on the code: two consecutive runs of
`extractFallbackTokens("cinematic")` (from the module's initial state)
return the same single token text but different roles.  The first run's
`mood` pattern test matches `"cinematic"` and leaves its shared `lastIndex`
at 9; the second run's test therefore searches from position 9, fails,
and the role falls through to the default `"descriptor"`.  The spec requires
the extractor to be a pure function of `raw`, so this is a defect of the
code (the classic `g`-flag `RegExp.test` statefulness), not of the claim. -/
theorem c9_global_regex_state :
    ((extractFallbackTokens (fun n => [Char.ofNat (48 + n)]) 0
        initialKeywordRoleState ("cinematic".toList)).tokens.map Token.role =
      [TokenRole.mood]) ∧
      ((extractFallbackTokens (fun n => [Char.ofNat (48 + n)])
          (extractFallbackTokens (fun n => [Char.ofNat (48 + n)]) 0
            initialKeywordRoleState ("cinematic".toList)).nextId
          (extractFallbackTokens (fun n => [Char.ofNat (48 + n)]) 0
            initialKeywordRoleState ("cinematic".toList)).rstate
          ("cinematic".toList)).tokens.map Token.role =
        [TokenRole.descriptor]) ∧
      ((extractFallbackTokens (fun n => [Char.ofNat (48 + n)]) 0
          initialKeywordRoleState ("cinematic".toList)).tokens.map Token.text =
        [("cinematic".toList)]) ∧
      ((extractFallbackTokens (fun n => [Char.ofNat (48 + n)])
          (extractFallbackTokens (fun n => [Char.ofNat (48 + n)]) 0
            initialKeywordRoleState ("cinematic".toList)).nextId
          (extractFallbackTokens (fun n => [Char.ofNat (48 + n)]) 0
            initialKeywordRoleState ("cinematic".toList)).rstate
          ("cinematic".toList)).tokens.map Token.text =
        [("cinematic".toList)]) := by
  refine ⟨?_, ?_, ?_, ?_⟩ <;> decide

end PromptBuilder
